import Mathlib

/-
Verification of the dependency-level resolution and level-ordered
synchronization engine of the parts_epccs repository.

The Python sources under src/api are shallowly embedded: dictionaries
become association lists or functions, the recursive memoized level
computation becomes a fuel-indexed function returning Option (the fuel
models Python's call stack: a computation that exhausts every finite
fuel is an unbounded recursion), and HTTP state becomes an explicit
record threaded through the push operations.
-/

namespace PartsEpccs

/-! ## Level computation (inv-parts_to_json.py / inv-pts_to_json.py, get_level)

Python source (identical in both scripts):

    def get_level(pk, memo, deps):
        if pk in memo:
            return memo[pk]
        if not deps.get(pk):
            memo[pk] = 1
            return 1
        max_dep_level = max((get_level(dep_pk, memo, deps) for dep_pk in deps[pk]), default=0)
        memo[pk] = 1 + max_dep_level
        return memo[pk]

The memo dict is an association list; `deps` is the defaultdict view
`Nat → List Nat` (absent key = empty list).  Fuel bounds the recursion
depth; `none` means the computation did not complete within the given
depth (for every fuel on a cycle: unbounded recursion). -/

abbrev Memo := List (Nat × Nat)

def mlookup : Memo → Nat → Option Nat
  | [], _ => none
  | (k, v) :: m, q => if q = k then some v else mlookup m q

/-- Left-to-right maximum over the dependency list, threading the memo,
mirroring Python's `max((get_level(d, memo, deps) for d in deps[pk]), default=0)`. -/
def goDeps (f : Nat → Memo → Option (Nat × Memo)) : List Nat → Memo → Option (Nat × Memo)
  | [], m => some (0, m)
  | d :: ds, m =>
    match f d m with
    | none => none
    | some (v, m1) =>
      match goDeps f ds m1 with
      | none => none
      | some (mv, m2) => some (Nat.max v mv, m2)

def get_level : Nat → (Nat → List Nat) → Nat → Memo → Option (Nat × Memo)
  | 0, _, _, _ => none
  | fuel + 1, deps, pk, memo =>
    match mlookup memo pk with
    | some v => some (v, memo)
    | none =>
      if deps pk = [] then
        some (1, (pk, 1) :: memo)
      else
        match goDeps (get_level fuel deps) (deps pk) memo with
        | none => none
        | some (mv, m2) => some (1 + mv, (pk, 1 + mv) :: m2)

/-- The main-loop driver: `for pk in all_parts: get_level(pk, level_memo, deps)`
starting from the empty memo. -/
def computeLevelsFrom (fuel : Nat) (deps : Nat → List Nat) : List Nat → Memo → Option Memo
  | [], m => some m
  | pk :: rest, m =>
    match get_level fuel deps pk m with
    | none => none
    | some (_, m') => computeLevelsFrom fuel deps rest m'

def computeLevels (fuel : Nat) (deps : Nat → List Nat) (pks : List Nat) : Option Memo :=
  computeLevelsFrom fuel deps pks []

/-- The cycle A→B→C→A of the spec's cycle-safety scenario (pks 0,1,2),
together with the unrelated dependency-free item D (pk 3). -/
def cycleDeps : Nat → List Nat :=
  fun pk => if pk = 0 then [1] else if pk = 1 then [2] else if pk = 2 then [0] else []

theorem cycle_no_progress (fuel : Nat) :
    ∀ m : Memo, mlookup m 0 = none → mlookup m 1 = none → mlookup m 2 = none →
      get_level fuel cycleDeps 0 m = none ∧ get_level fuel cycleDeps 1 m = none ∧
        get_level fuel cycleDeps 2 m = none := by
  induction fuel with
  | zero => intro m _ _ _; exact ⟨rfl, rfl, rfl⟩
  | succ f ih =>
    intro m h0 h1 h2
    refine ⟨?_, ?_, ?_⟩
    · show get_level (f + 1) cycleDeps 0 m = none
      simp only [get_level, h0, cycleDeps]
      simp only [if_pos rfl, goDeps]
      have := (ih m h0 h1 h2).2.1
      simp only [cycleDeps] at this
      simp [this]
    · show get_level (f + 1) cycleDeps 1 m = none
      simp only [get_level, h1, cycleDeps]
      norm_num [goDeps]
      have := (ih m h0 h1 h2).2.2
      simp only [cycleDeps] at this
      simp [this]
    · show get_level (f + 1) cycleDeps 2 m = none
      simp only [get_level, h2, cycleDeps]
      norm_num [goDeps]
      have := (ih m h0 h1 h2).1
      simp only [cycleDeps] at this
      simp [this]

/-- C1: given the cycle A→B→C→A, get_level never terminates normally on a
cycle member no matter how deep the recursion is allowed to go (it recurses
unboundedly instead of reporting a cycle error), while the unrelated item D
with no dependencies still resolves to level 1. -/
theorem get_level_cycle_unbounded_recursion :
    (∀ fuel, get_level fuel cycleDeps 0 [] = none) ∧
      (∀ fuel, get_level (fuel + 1) cycleDeps 3 [] = some (1, [(3, 1)])) := by
  constructor
  · intro fuel
    exact (cycle_no_progress fuel [] rfl rfl rfl).1
  · intro fuel
    simp [get_level, mlookup, cycleDeps]

/-! ### Memo invariants for get_level

The memo dict is only ever extended (an entry, once written, is never
changed), every recorded value strictly dominates the recorded values of
its dependencies, and keys added during a call are reachable from the
argument.  Acyclicity is expressed by a rank function that strictly
decreases along dependency edges. -/

theorem goDeps_preserves (f : Nat → Memo → Option (Nat × Memo))
    (hf : ∀ d m v m', f d m = some (v, m') →
      ∀ k w, mlookup m k = some w → mlookup m' k = some w) :
    ∀ ds m mv m2, goDeps f ds m = some (mv, m2) →
      ∀ k w, mlookup m k = some w → mlookup m2 k = some w := by
  intro ds
  induction ds with
  | nil =>
    intro m mv m2 h k w hk
    simp only [goDeps, Option.some.injEq, Prod.mk.injEq] at h
    rw [← h.2]; exact hk
  | cons d ds ih =>
    intro m mv m2 h k w hk
    simp only [goDeps] at h
    cases hfd : f d m with
    | none => simp [hfd] at h
    | some p =>
      obtain ⟨v, m1⟩ := p
      simp only [hfd] at h
      cases hgo : goDeps f ds m1 with
      | none => simp [hgo] at h
      | some q =>
        obtain ⟨mv', m2'⟩ := q
        simp only [hgo] at h
        simp only [Option.some.injEq, Prod.mk.injEq] at h
        rw [← h.2]
        exact ih m1 mv' m2' hgo k w (hf d m v m1 hfd k w hk)

theorem get_level_preserves :
    ∀ fuel deps pk m v m', get_level fuel deps pk m = some (v, m') →
      ∀ k w, mlookup m k = some w → mlookup m' k = some w := by
  intro fuel
  induction fuel with
  | zero => intro deps pk m v m' h; simp [get_level] at h
  | succ f ih =>
    intro deps pk m v m' h k w hk
    simp only [get_level] at h
    cases hm : mlookup m pk with
    | some v0 =>
      simp only [hm] at h
      simp only [Option.some.injEq, Prod.mk.injEq] at h
      rw [← h.2]; exact hk
    | none =>
      simp only [hm] at h
      by_cases hd : deps pk = []
      · rw [if_pos hd] at h
        simp only [Option.some.injEq, Prod.mk.injEq] at h
        rw [← h.2]
        simp only [mlookup]
        rcases eq_or_ne k pk with rfl | hne
        · rw [hm] at hk; exact absurd hk (by simp)
        · rw [if_neg hne]; exact hk
      · rw [if_neg hd] at h
        cases hgo : goDeps (get_level f deps) (deps pk) m with
        | none => simp [hgo] at h
        | some q =>
          obtain ⟨mv, m2⟩ := q
          simp only [hgo] at h
          simp only [Option.some.injEq, Prod.mk.injEq] at h
          rw [← h.2]
          have hk2 := goDeps_preserves (get_level f deps)
            (fun d m v m' hh => ih deps d m v m' hh) (deps pk) m mv m2 hgo k w hk
          simp only [mlookup]
          rcases eq_or_ne k pk with rfl | hne
          · rw [hm] at hk; exact absurd hk (by simp)
          · rw [if_neg hne]; exact hk2

/-- Reachability in the dependency graph (reflexive-transitive closure of
the edge relation `b ∈ deps a`). -/
inductive Reach (deps : Nat → List Nat) : Nat → Nat → Prop
  | refl (a : Nat) : Reach deps a a
  | step {a b c : Nat} : b ∈ deps a → Reach deps b c → Reach deps a c

theorem goDeps_new_key (f : Nat → Memo → Option (Nat × Memo)) (deps : Nat → List Nat)
    (hf : ∀ d m v m', f d m = some (v, m') →
      ∀ k, mlookup m k = none → mlookup m' k ≠ none → Reach deps d k) :
    ∀ ds m mv m2, goDeps f ds m = some (mv, m2) →
      ∀ k, mlookup m k = none → mlookup m2 k ≠ none → ∃ d ∈ ds, Reach deps d k := by
  intro ds
  induction ds with
  | nil =>
    intro m mv m2 h k hk hk2
    simp only [goDeps, Option.some.injEq, Prod.mk.injEq] at h
    rw [← h.2] at hk2
    exact absurd hk hk2
  | cons d ds ih =>
    intro m mv m2 h k hk hk2
    simp only [goDeps] at h
    cases hfd : f d m with
    | none => simp [hfd] at h
    | some p =>
      obtain ⟨v, m1⟩ := p
      simp only [hfd] at h
      cases hgo : goDeps f ds m1 with
      | none => simp [hgo] at h
      | some q =>
        obtain ⟨mv', m2'⟩ := q
        simp only [hgo] at h
        simp only [Option.some.injEq, Prod.mk.injEq] at h
        rw [← h.2] at hk2
        cases hm1 : mlookup m1 k with
        | some w =>
          exact ⟨d, List.mem_cons_self d ds, hf d m v m1 hfd k hk (by rw [hm1]; simp)⟩
        | none =>
          obtain ⟨d', hd', hr⟩ := ih m1 mv' m2' hgo k hm1 hk2
          exact ⟨d', List.mem_cons_of_mem d hd', hr⟩

theorem get_level_new_key :
    ∀ fuel deps pk m v m', get_level fuel deps pk m = some (v, m') →
      ∀ k, mlookup m k = none → mlookup m' k ≠ none → Reach deps pk k := by
  intro fuel
  induction fuel with
  | zero => intro deps pk m v m' h; simp [get_level] at h
  | succ f ih =>
    intro deps pk m v m' h k hk hk2
    simp only [get_level] at h
    cases hm : mlookup m pk with
    | some v0 =>
      simp only [hm] at h
      simp only [Option.some.injEq, Prod.mk.injEq] at h
      rw [← h.2] at hk2
      exact absurd hk hk2
    | none =>
      simp only [hm] at h
      by_cases hd : deps pk = []
      · rw [if_pos hd] at h
        simp only [Option.some.injEq, Prod.mk.injEq] at h
        rw [← h.2] at hk2
        rcases eq_or_ne k pk with rfl | hne
        · exact Reach.refl k
        · simp only [mlookup, if_neg hne] at hk2
          exact absurd hk hk2
      · rw [if_neg hd] at h
        cases hgo : goDeps (get_level f deps) (deps pk) m with
        | none => simp [hgo] at h
        | some q =>
          obtain ⟨mv, m2⟩ := q
          simp only [hgo] at h
          simp only [Option.some.injEq, Prod.mk.injEq] at h
          rw [← h.2] at hk2
          rcases eq_or_ne k pk with rfl | hne
          · exact Reach.refl k
          · simp only [mlookup, if_neg hne] at hk2
            obtain ⟨d, hdm, hr⟩ := goDeps_new_key (get_level f deps) deps
              (fun d m v m' hh => ih deps d m v m' hh) (deps pk) m mv m2 hgo k hk hk2
            exact Reach.step hdm hr

theorem reach_rank_le (deps : Nat → List Nat) (r : Nat → Nat)
    (hrank : ∀ a b, b ∈ deps a → r b < r a) :
    ∀ a b, Reach deps a b → r b ≤ r a := by
  intro a b h
  induction h with
  | refl a => exact le_rfl
  | step hmem _ ih => exact le_trans ih (le_of_lt (hrank _ _ hmem))

/-- Every memo entry strictly dominates the memo entries of all its
dependencies. -/
def GoodMemo (deps : Nat → List Nat) (m : Memo) : Prop :=
  ∀ p v, mlookup m p = some v → ∀ d ∈ deps p, ∃ w, mlookup m d = some w ∧ w < v

theorem goDeps_good (deps : Nat → List Nat) (f : Nat → Memo → Option (Nat × Memo))
    (hfp : ∀ d m v m', f d m = some (v, m') →
      ∀ k w, mlookup m k = some w → mlookup m' k = some w)
    (hfg : ∀ d m v m', f d m = some (v, m') → GoodMemo deps m →
      GoodMemo deps m' ∧ mlookup m' d = some v) :
    ∀ ds m mv m2, goDeps f ds m = some (mv, m2) → GoodMemo deps m →
      GoodMemo deps m2 ∧ ∀ d ∈ ds, ∃ w, mlookup m2 d = some w ∧ w ≤ mv := by
  intro ds
  induction ds with
  | nil =>
    intro m mv m2 h hG
    simp only [goDeps, Option.some.injEq, Prod.mk.injEq] at h
    rw [← h.2]
    exact ⟨hG, by simp⟩
  | cons d ds ih =>
    intro m mv m2 h hG
    simp only [goDeps] at h
    cases hfd : f d m with
    | none => simp [hfd] at h
    | some p =>
      obtain ⟨v, m1⟩ := p
      simp only [hfd] at h
      cases hgo : goDeps f ds m1 with
      | none => simp [hgo] at h
      | some q =>
        obtain ⟨mv', m2'⟩ := q
        simp only [hgo] at h
        simp only [Option.some.injEq, Prod.mk.injEq] at h
        obtain ⟨hmv, hm2⟩ := h
        subst hm2
        obtain ⟨hG1, hd1⟩ := hfg d m v m1 hfd hG
        obtain ⟨hG2, hbound⟩ := ih m1 mv' m2' hgo hG1
        refine ⟨hG2, ?_⟩
        intro d' hd'
        rcases List.mem_cons.mp hd' with rfl | hmem
        · exact ⟨v, goDeps_preserves f hfp ds m1 mv' m2' hgo d' v hd1,
            by rw [← hmv]; exact Nat.le_max_left v mv'⟩
        · obtain ⟨w, hw, hle⟩ := hbound d' hmem
          exact ⟨w, hw, by rw [← hmv]; exact le_trans hle (Nat.le_max_right v mv')⟩

theorem get_level_good (deps : Nat → List Nat) (r : Nat → Nat)
    (hrank : ∀ a b, b ∈ deps a → r b < r a) :
    ∀ fuel pk m v m', get_level fuel deps pk m = some (v, m') → GoodMemo deps m →
      GoodMemo deps m' ∧ mlookup m' pk = some v := by
  intro fuel
  induction fuel with
  | zero => intro pk m v m' h; simp [get_level] at h
  | succ f ih =>
    intro pk m v m' h hG
    simp only [get_level] at h
    cases hm : mlookup m pk with
    | some v0 =>
      simp only [hm] at h
      simp only [Option.some.injEq, Prod.mk.injEq] at h
      rw [← h.2, ← h.1]
      exact ⟨hG, hm⟩
    | none =>
      simp only [hm] at h
      by_cases hd : deps pk = []
      · rw [if_pos hd] at h
        simp only [Option.some.injEq, Prod.mk.injEq] at h
        obtain ⟨hv, hm'⟩ := h
        subst hm'
        constructor
        · intro p pv hp d hdp
          simp only [mlookup] at hp
          rcases eq_or_ne p pk with rfl | hne
          · rw [hd] at hdp; exact absurd hdp (List.not_mem_nil d)
          · rw [if_neg hne] at hp
            obtain ⟨w, hw, hlt⟩ := hG p pv hp d hdp
            have hdpk : d ≠ pk := by
              intro hdd; rw [hdd, hm] at hw; exact absurd hw (by simp)
            exact ⟨w, by simp only [mlookup, if_neg hdpk]; exact hw, hlt⟩
        · simp [mlookup, ← hv]
      · rw [if_neg hd] at h
        cases hgo : goDeps (get_level f deps) (deps pk) m with
        | none => simp [hgo] at h
        | some q =>
          obtain ⟨mv, m2⟩ := q
          simp only [hgo] at h
          simp only [Option.some.injEq, Prod.mk.injEq] at h
          obtain ⟨hv, hm'⟩ := h
          subst hm'
          obtain ⟨hG2, hbound⟩ := goDeps_good deps (get_level f deps)
            (fun d m v m' hh => get_level_preserves f deps d m v m' hh)
            (fun d m v m' hh hGm => ih d m v m' hh hGm) (deps pk) m mv m2 hgo hG
          have hpk2 : mlookup m2 pk = none := by
            cases hc : mlookup m2 pk with
            | none => rfl
            | some w =>
              obtain ⟨d, hdm, hr⟩ := goDeps_new_key (get_level f deps) deps
                (fun d m v m' hh => get_level_new_key f deps d m v m' hh)
                (deps pk) m mv m2 hgo pk hm (by rw [hc]; simp)
              have h1 : r pk ≤ r d := reach_rank_le deps r hrank d pk hr
              have h2 : r d < r pk := hrank pk d hdm
              omega
          constructor
          · intro p pv hp d hdp
            simp only [mlookup] at hp
            rcases eq_or_ne p pk with rfl | hne
            · rw [if_pos rfl] at hp
              obtain ⟨w, hw, hle⟩ := hbound d hdp
              have hdpk : d ≠ p := by
                intro hdd; rw [hdd, hpk2] at hw; exact absurd hw (by simp)
              refine ⟨w, by simp only [mlookup, if_neg hdpk]; exact hw, ?_⟩
              simp only [Option.some.injEq] at hp
              omega
            · rw [if_neg hne] at hp
              obtain ⟨w, hw, hlt⟩ := hG2 p pv hp d hdp
              have hdpk : d ≠ pk := by
                intro hdd; rw [hdd, hpk2] at hw; exact absurd hw (by simp)
              exact ⟨w, by simp only [mlookup, if_neg hdpk]; exact hw, hlt⟩
          · simp [mlookup, ← hv]

theorem computeLevelsFrom_good (deps : Nat → List Nat) (r : Nat → Nat)
    (hrank : ∀ a b, b ∈ deps a → r b < r a) (fuel : Nat) :
    ∀ pks m mF, computeLevelsFrom fuel deps pks m = some mF → GoodMemo deps m →
      GoodMemo deps mF := by
  intro pks
  induction pks with
  | nil =>
    intro m mF h hG
    simp only [computeLevelsFrom, Option.some.injEq] at h
    rw [← h]; exact hG
  | cons pk rest ih =>
    intro m mF h hG
    simp only [computeLevelsFrom] at h
    cases hgl : get_level fuel deps pk m with
    | none => simp [hgl] at h
    | some p =>
      obtain ⟨v, m'⟩ := p
      simp only [hgl] at h
      exact ih m' mF h (get_level_good deps r hrank fuel pk m v m' hgl hG).1

/-- C5: for every acyclic dependency graph (witnessed by a rank function
that strictly decreases along every edge) and every edge (a → b), the
levels recorded by the memoized get_level driver satisfy
level(a) > level(b). -/
theorem get_level_monotone (deps : Nat → List Nat) (r : Nat → Nat)
    (hrank : ∀ a b, b ∈ deps a → r b < r a)
    (fuel : Nat) (pks : List Nat) (memoF : Memo) (a b la : Nat)
    (hrun : computeLevels fuel deps pks = some memoF)
    (ha : mlookup memoF a = some la) (hb : b ∈ deps a) :
    ∃ lb, mlookup memoF b = some lb ∧ lb < la := by
  have hG : GoodMemo deps memoF :=
    computeLevelsFrom_good deps r hrank fuel pks [] memoF hrun
      (by intro p v h; simp [mlookup] at h)
  exact hG a la ha b hb

/-- The two-node chain 10 → 20 used to witness C5 on a concrete run. -/
def ladderDeps : Nat → List Nat := fun pk => if pk = 10 then [20] else []

theorem get_level_monotone_witness :
    ∃ lb, mlookup [(10, 2), (20, 1)] 20 = some lb ∧ lb < 2 :=
  get_level_monotone ladderDeps (fun k => if k = 10 then 1 else 0)
    (by
      intro a b hb
      simp only [ladderDeps] at hb
      by_cases ha : a = 10
      · rw [if_pos ha] at hb
        simp only [List.mem_singleton] at hb
        subst hb; subst ha
        simp
      · rw [if_neg ha] at hb
        exact absurd hb (List.not_mem_nil b))
    5 [10, 20] [(10, 2), (20, 1)] 10 20 2 (by decide) (by decide) (by decide)

/-! ## Filenames and sanitizers

`sanitize_part_name` (inv-parts_to_json.py):

    sanitized = name.replace(' ', '_').replace('.', ',')
    sanitized = re.sub(r'[<>:"/\\|?*]', '_', sanitized.strip())

`parse_filename` (json_to_inv-parts.py / json_to_inv-pts.py): strip the
trailing ".json", then rsplit on the last '.' when one is present.
The pull side writes `f"{san_name}{rev_suffix}.json"` with
`rev_suffix = f".{revision}" if revision else ""`. -/

def isPySpace (c : Char) : Bool :=
  c == ' ' || c == '\t' || c == '\n' || c == '\r' || c == '\x0b' || c == '\x0c'

def pyStrip (l : List Char) : List Char :=
  ((l.dropWhile isPySpace).reverse.dropWhile isPySpace).reverse

def badFileChar (c : Char) : Bool :=
  c == '<' || c == '>' || c == ':' || c == '"' || c == '/' || c == '\\' ||
    c == '|' || c == '?' || c == '*'

def sanitize_part_name (l : List Char) : List Char :=
  (pyStrip ((l.map (fun c => if c = ' ' then '_' else c)).map
      (fun c => if c = '.' then ',' else c))).map
    (fun c => if badFileChar c then '_' else c)

def jsonExt : List Char := ['.', 'j', 's', 'o', 'n']

/-- `name_part.rsplit(".", 1)` for a `name_part` known to contain a dot. -/
def splitOnLastDot (l : List Char) : List Char × List Char :=
  let r := l.reverse
  let after := r.takeWhile (fun c => !(c == '.'))
  let rest := r.dropWhile (fun c => !(c == '.'))
  ((rest.drop 1).reverse, after.reverse)

def parse_filename (basename : List Char) : Option (List Char × Option (List Char)) :=
  if 5 ≤ basename.length ∧ basename.drop (basename.length - 5) = jsonExt then
    let name_part := basename.take (basename.length - 5)
    if '.' ∈ name_part then
      let p := splitOnLastDot name_part
      some (p.1, some p.2)
    else
      some (name_part, none)
  else
    none

/-- The pull-side filename `f"{san_name}{rev_suffix}.json"`. -/
def encodeFilename (name rev : List Char) : List Char :=
  name ++ (if rev = [] then [] else '.' :: rev) ++ jsonExt

theorem mem_pyStrip {c : Char} {l : List Char} (h : c ∈ pyStrip l) : c ∈ l := by
  simp only [pyStrip, List.mem_reverse] at h
  have h1 := (List.dropWhile_sublist isPySpace).subset h
  rw [List.mem_reverse] at h1
  exact (List.dropWhile_sublist isPySpace).subset h1

theorem sanitize_part_name_no_dot (s : List Char) : '.' ∉ sanitize_part_name s := by
  intro hmem
  simp only [sanitize_part_name, List.mem_map] at hmem
  obtain ⟨c, hc, hcq⟩ := hmem
  have hc2 := mem_pyStrip hc
  simp only [List.mem_map] at hc2
  obtain ⟨d, _, hdq⟩ := hc2
  by_cases hb : badFileChar c
  · rw [if_pos hb] at hcq
    exact absurd hcq (by decide)
  · rw [if_neg hb] at hcq
    rw [hcq] at hdq
    by_cases hdd : d = '.'
    · rw [if_pos hdd] at hdq
      exact absurd hdq (by decide)
    · rw [if_neg hdd] at hdq
      exact hdd hdq

theorem takeWhile_dropWhile_middle (p : Char → Bool) :
    ∀ (l1 : List Char) (a : Char) (l2 : List Char), (∀ c ∈ l1, p c = true) → p a = false →
      (l1 ++ a :: l2).takeWhile p = l1 ∧ (l1 ++ a :: l2).dropWhile p = a :: l2 := by
  intro l1
  induction l1 with
  | nil =>
    intro a l2 _ hpa
    simp [List.takeWhile, List.dropWhile, hpa]
  | cons c cs ih =>
    intro a l2 h hpa
    have hc : p c = true := h c (List.mem_cons_self c cs)
    have hrec := ih a l2 (fun x hx => h x (List.mem_cons_of_mem c hx)) hpa
    simp only [List.cons_append, List.takeWhile, List.dropWhile, hc, List.append_eq]
    exact ⟨by rw [hrec.1], hrec.2⟩

theorem splitOnLastDot_append (name rev : List Char) (hr : '.' ∉ rev) :
    splitOnLastDot (name ++ '.' :: rev) = (name, rev) := by
  have hrev : (name ++ '.' :: rev).reverse = rev.reverse ++ '.' :: name.reverse := by
    simp
  have hall : ∀ c ∈ rev.reverse, (!(c == '.')) = true := by
    intro c hcm
    rw [List.mem_reverse] at hcm
    simp only [Bool.not_eq_true', beq_eq_false_iff_ne, ne_eq]
    intro hc; rw [hc] at hcm; exact hr hcm
  have hdot : (!(('.' : Char) == '.')) = false := by decide
  have hmid := takeWhile_dropWhile_middle (fun c => !(c == '.')) rev.reverse '.' name.reverse hall hdot
  simp only [splitOnLastDot, hrev, hmid.1, hmid.2]
  simp

/-- C10: the pull-side filename encoding (sanitized name, plus `.revision`
when the revision is non-empty, plus `.json`) composed with the push-side
parse_filename returns exactly the original (name, revision) pair when the
name and revision contain no '.', a revision-less filename parses to
(name, none), and sanitize_part_name indeed never emits a '.' (it maps '.'
to ','). -/
theorem parse_filename_roundtrip (name rev : List Char)
    (hn : '.' ∉ name) (hr : '.' ∉ rev) (hrev : rev ≠ []) :
    parse_filename (encodeFilename name rev) = some (name, some rev) ∧
      parse_filename (encodeFilename name []) = some (name, none) ∧
      ∀ s : List Char, '.' ∉ sanitize_part_name s := by
  refine ⟨?_, ?_, sanitize_part_name_no_dot⟩
  · have henc : encodeFilename name rev = (name ++ '.' :: rev) ++ jsonExt := by
      simp [encodeFilename, hrev]
    have hlen : ((name ++ '.' :: rev) ++ jsonExt).length - 5 = (name ++ '.' :: rev).length := by
      simp only [jsonExt, List.length_append, List.length_cons, List.length_nil]
      omega
    have hcond : 5 ≤ (encodeFilename name rev).length ∧
        (encodeFilename name rev).drop ((encodeFilename name rev).length - 5) = jsonExt := by
      rw [henc]
      constructor
      · simp only [jsonExt, List.length_append, List.length_cons, List.length_nil]
        omega
      · rw [hlen]; exact List.drop_left _ _
    rw [henc] at hcond ⊢
    simp only [parse_filename, if_pos hcond, hlen, List.take_left]
    have hdotmem : '.' ∈ name ++ '.' :: rev := by simp
    rw [if_pos hdotmem, splitOnLastDot_append name rev hr]
    rw [hlen] at hcond
    rw [if_pos hcond]
  · have henc : encodeFilename name [] = name ++ jsonExt := by
      simp [encodeFilename]
    have hlen : (name ++ jsonExt).length - 5 = name.length := by
      simp only [jsonExt, List.length_append, List.length_cons, List.length_nil]
      omega
    have hcond : 5 ≤ (encodeFilename name []).length ∧
        (encodeFilename name []).drop ((encodeFilename name []).length - 5) = jsonExt := by
      rw [henc]
      constructor
      · simp only [jsonExt, List.length_append, List.length_cons, List.length_nil]
        omega
      · rw [hlen]; exact List.drop_left _ _
    rw [henc] at hcond ⊢
    simp only [parse_filename, if_pos hcond, hlen, List.take_left]
    rw [if_neg hn]
    rw [hlen] at hcond
    rw [if_pos hcond]

theorem parse_filename_roundtrip_witness :
    ('.' ∉ ("Widget").toList ∧ '.' ∉ ("A").toList ∧ ("A").toList ≠ []) ∧
      parse_filename (encodeFilename ("Widget").toList ("A").toList) =
        some (("Widget").toList, some (("A").toList)) :=
  ⟨⟨by decide, by decide, by decide⟩,
    (parse_filename_roundtrip ("Widget").toList ("A").toList
      (by decide) (by decide) (by decide)).1⟩

/-! ## File grouping and the identity-conflict check (json_to_inv-pts.py, main)

    key_to_files = defaultdict(list)
    for f in level_files:
        name, rev_from_file = parse_filename(f)
        if not name: continue
        key_to_files[key].append((f, rev_from_file))
    for key, flist in key_to_files.items():
        if len(flist) > 1:
            print(f"WARNING ... multiple files: {files_str}. Processing anyway.")
    for key, flist in key_to_files.items():
        for f, rev_from_file in flist:
            push_part(f, ...)

All files of one level directory share the directory prefix, so the group
key reduces to the parsed name. -/

abbrev FileGroup := List Char × List (List Char × Option (List Char))

def upsertGroup : List FileGroup → List Char → List Char × Option (List Char) → List FileGroup
  | [], key, val => [(key, [val])]
  | (k, vs) :: rest, key, val =>
    if k = key then (k, vs ++ [val]) :: rest
    else (k, vs) :: upsertGroup rest key val

def groupStep (groups : List FileGroup) (f : List Char) : List FileGroup :=
  match parse_filename f with
  | none => groups
  | some (nm, rv) => if nm = [] then groups else upsertGroup groups nm (f, rv)

def groupKeyFiles (files : List (List Char)) : List FileGroup :=
  files.foldl groupStep []

def hasConflict (groups : List FileGroup) : Bool :=
  groups.any (fun g => decide (1 < g.2.length))

def processedFiles (groups : List FileGroup) : List (List Char) :=
  (groups.map (fun g => g.2.map Prod.fst)).flatten

theorem processedFiles_cons (g : FileGroup) (rest : List FileGroup) :
    processedFiles (g :: rest) = g.2.map Prod.fst ++ processedFiles rest := by
  simp [processedFiles]

theorem mem_processed_upsert_superset (x : List Char) :
    ∀ (groups : List FileGroup) (key : List Char) (val : List Char × Option (List Char)),
      x ∈ processedFiles groups → x ∈ processedFiles (upsertGroup groups key val) := by
  intro groups
  induction groups with
  | nil => intro key val hx; simp [processedFiles] at hx
  | cons g rest ih =>
    intro key val hx
    obtain ⟨k, vs⟩ := g
    rw [processedFiles_cons] at hx
    simp only [upsertGroup]
    by_cases hk : k = key
    · rw [if_pos hk, processedFiles_cons]
      rcases List.mem_append.mp hx with h1 | h2
      · refine List.mem_append.mpr (Or.inl ?_)
        simp only [List.map_append]
        exact List.mem_append.mpr (Or.inl h1)
      · exact List.mem_append.mpr (Or.inr h2)
    · rw [if_neg hk, processedFiles_cons]
      rcases List.mem_append.mp hx with h1 | h2
      · exact List.mem_append.mpr (Or.inl h1)
      · exact List.mem_append.mpr (Or.inr (ih key val h2))

theorem mem_processed_upsert_self (x : List Char) (rv : Option (List Char)) :
    ∀ (groups : List FileGroup) (key : List Char),
      x ∈ processedFiles (upsertGroup groups key (x, rv)) := by
  intro groups
  induction groups with
  | nil => intro key; simp [upsertGroup, processedFiles]
  | cons g rest ih =>
    intro key
    obtain ⟨k, vs⟩ := g
    simp only [upsertGroup]
    by_cases hk : k = key
    · rw [if_pos hk, processedFiles_cons]
      refine List.mem_append.mpr (Or.inl ?_)
      simp
    · rw [if_neg hk, processedFiles_cons]
      exact List.mem_append.mpr (Or.inr (ih key))

theorem processed_foldl_aux (x : List Char) :
    ∀ (files : List (List Char)) (acc : List FileGroup),
      (x ∈ processedFiles acc ∨
        (x ∈ files ∧ ∃ nm rv, parse_filename x = some (nm, rv) ∧ nm ≠ [])) →
      x ∈ processedFiles (files.foldl groupStep acc) := by
  intro files
  induction files with
  | nil =>
    intro acc h
    rcases h with h | ⟨hx, _⟩
    · exact h
    · exact absurd hx (List.not_mem_nil x)
  | cons g gs ih =>
    intro acc h
    simp only [List.foldl_cons]
    rcases h with h | ⟨hx, nm, rv, hp, hnm⟩
    · refine ih (groupStep acc g) (Or.inl ?_)
      cases hpg : parse_filename g with
      | none => simp only [groupStep, hpg]; exact h
      | some p =>
        obtain ⟨nm', rv'⟩ := p
        simp only [groupStep, hpg]
        by_cases hn : nm' = []
        · rw [if_pos hn]; exact h
        · rw [if_neg hn]; exact mem_processed_upsert_superset x acc nm' (g, rv') h
    · rcases List.mem_cons.mp hx with rfl | hgs
      · refine ih (groupStep acc x) (Or.inl ?_)
        simp only [groupStep, hp]
        rw [if_neg hnm]
        exact mem_processed_upsert_self x rv acc nm
      · exact ih (groupStep acc g) (Or.inr ⟨hgs, nm, rv, hp, hnm⟩)

/-- C8 (amended): an identity conflict (several files grouping to the same
key, e.g. a revisioned and a non-revisioned file of one base name) is only
warned about; every conflicting file is still pushed — nothing is rejected
and no abort happens before network writes. -/
theorem conflicting_files_processed_anyway (files : List (List Char)) (f nm : List Char)
    (rv : Option (List Char)) (hf : f ∈ files)
    (hp : parse_filename f = some (nm, rv)) (hnm : nm ≠ []) :
    f ∈ processedFiles (groupKeyFiles files) :=
  processed_foldl_aux f files [] (Or.inr ⟨hf, nm, rv, hp, hnm⟩)

def redA : List Char := ("Red_Widget.A.json").toList

def redB : List Char := ("Red_Widget.B.json").toList

def redPlain : List Char := ("Red_Widget.json").toList

/-- C8 counterexample: the corpus {Red_Widget.A, Red_Widget.B, Red_Widget}
is a detected conflict (three files with one key), yet all three files are
still processed (pushed) rather than the group being rejected. -/
theorem identity_conflict_not_rejected :
    hasConflict (groupKeyFiles [redA, redB, redPlain]) = true ∧
      processedFiles (groupKeyFiles [redA, redB, redPlain]) = [redA, redB, redPlain] := by
  decide

theorem conflicting_files_processed_anyway_witness :
    (redPlain ∈ [redA, redB, redPlain] ∧
        parse_filename redPlain = some (("Red_Widget").toList, none) ∧
        ("Red_Widget").toList ≠ []) ∧
      redPlain ∈ processedFiles (groupKeyFiles [redA, redB, redPlain]) :=
  ⟨⟨by decide, by decide, by decide⟩,
    conflicting_files_processed_anyway [redA, redB, redPlain] redPlain ("Red_Widget").toList
      none (by decide) (by decide) (by decide)⟩

/-! ## Identity resolution

`check_part_exists` (json_to_inv-pts.py):

    for res in candidates:
        if (revision is None or res.get('revision') == revision) and
           (ipn is None or res.get('IPN') == ipn):
            results.append(res)

push_part calls it as `check_part_exists(cache, name, revision if revision
else None, ipn)`.

push_bom sub-part resolution (json_to_inv-parts.py):

    sub_parts = [p for p in candidates
                 if (p.get("IPN", "") == sub_ipn or not sub_ipn)
                 and (p.get("revision", "") == sub_revision or sub_revision == "")]
    if not sub_parts and sub_revision:
        sub_parts = [p for p in candidates if p.get("IPN", "") == sub_ipn or not sub_ipn]
-/

structure PartRec where
  pk : Nat
  name : String
  revision : String
  IPN : String
  validated_bom : Bool
deriving DecidableEq

def check_part_exists (cache : String → List PartRec) (name : String)
    (revision : Option String) (ipn : Option String) : List PartRec :=
  (cache name).filter (fun res =>
    (match revision with
     | none => true
     | some rv => res.revision == rv) &&
    (match ipn with
     | none => true
     | some i => res.IPN == i))

/-- `revision if revision else None` at the push_part call site. -/
def pushRevArg (revision : String) : Option String :=
  if revision == "" then none else some revision

def subPartFilterExact (candidates : List PartRec) (sub_ipn sub_revision : String) :
    List PartRec :=
  candidates.filter (fun p =>
    (p.IPN == sub_ipn || sub_ipn == "") && (p.revision == sub_revision || sub_revision == ""))

def resolveSubPart (candidates : List PartRec) (sub_ipn sub_revision : String) : List PartRec :=
  let sub_parts := subPartFilterExact candidates sub_ipn sub_revision
  if sub_parts.isEmpty && !(sub_revision == "") then
    candidates.filter (fun p => p.IPN == sub_ipn || sub_ipn == "")
  else sub_parts

def widgetB : PartRec := ⟨1, "Widget", "B", "IPN1", false⟩

def widgetCache : String → List PartRec := fun n => if n = "Widget" then [widgetB] else []

/-- C2 counterexample: resolving ("Widget", "A", "IPN1") through push_bom's
sub-part lookup returns the record whose revision is "B" (the IPN-only
fallback fires), and the empty-revision lookup as performed by push_part
(revision passed as None) returns a record whose revision is "B" rather
than matching only empty revisions. -/
theorem revision_fallback_counterexample :
    (resolveSubPart (widgetCache "Widget") "IPN1" "A" = [widgetB] ∧ widgetB.revision ≠ "A") ∧
      (check_part_exists widgetCache "Widget" (pushRevArg "") (some "IPN1") = [widgetB] ∧
        widgetB.revision ≠ "") := by
  decide

/-- C2 (amended): when a non-empty revision is requested, check_part_exists
filters by exact revision equality; but an empty requested revision is passed
as no-filter (matching any revision), and push_bom's sub-part resolution
falls back to IPN-only matching — ignoring revision — whenever no
exact-revision match exists, so a record of a different revision can be
returned in exactly that fallback case. -/
theorem revision_filter_exact_or_fallback :
    (∀ (cache : String → List PartRec) (name rv : String) (ipn : Option String)
        (p : PartRec), p ∈ check_part_exists cache name (some rv) ipn → p.revision = rv) ∧
      (∀ (candidates : List PartRec) (sub_ipn sub_revision : String) (p : PartRec),
        sub_revision ≠ "" → p ∈ resolveSubPart candidates sub_ipn sub_revision →
          p.revision = sub_revision ∨ subPartFilterExact candidates sub_ipn sub_revision = []) := by
  constructor
  · intro cache name rv ipn p hp
    simp only [check_part_exists, List.mem_filter, Bool.and_eq_true, beq_iff_eq] at hp
    exact hp.2.1
  · intro candidates sub_ipn sub_revision p hrv hp
    simp only [resolveSubPart] at hp
    by_cases he : ((subPartFilterExact candidates sub_ipn sub_revision).isEmpty &&
        !(sub_revision == "")) = true
    · rw [if_pos he] at hp
      right
      rw [Bool.and_eq_true] at he
      exact List.isEmpty_iff.mp he.1
    · rw [if_neg he] at hp
      left
      simp only [subPartFilterExact, List.mem_filter, Bool.and_eq_true, Bool.or_eq_true,
        beq_iff_eq] at hp
      rcases hp.2.2 with h | h
      · exact h
      · exact absurd h hrv

theorem revision_filter_exact_or_fallback_witness :
    (("A" : String) ≠ "" ∧ widgetB ∈ resolveSubPart (widgetCache "Widget") "IPN1" "A") ∧
      (widgetB.revision = "A" ∨ subPartFilterExact (widgetCache "Widget") "IPN1" "A" = []) :=
  ⟨⟨by decide, by decide⟩,
    revision_filter_exact_or_fallback.2 (widgetCache "Widget") "IPN1" "A" widgetB
      (by decide) (by decide)⟩

/-! ## BOM validation (json_to_inv-parts.py, push_bom)

    all_validated = True
    all_found = True
    for node in tree:
        ...
        if not sub_parts:
            all_found = False
            all_validated = False
            continue
        ...
        if not validated:
            all_validated = False
    if tree and all_found and all_validated:
        api_patch(..., {"validated_bom": True}, ...)
-/

structure BomNode where
  quantity : Nat
  note : String
  validated : Bool
  active : Bool
  sub_name : String
  sub_IPN : String
  sub_revision : String
deriving DecidableEq

/-- The (all_validated, all_found) flag pair threaded through push_bom's loop. -/
def bomFlagsGo (cache : String → List PartRec) : List BomNode → Bool × Bool → Bool × Bool
  | [], acc => acc
  | node :: rest, acc =>
    if (resolveSubPart (cache node.sub_name) node.sub_IPN node.sub_revision).isEmpty then
      bomFlagsGo cache rest (false, false)
    else
      bomFlagsGo cache rest (acc.1 && node.validated, acc.2)

def bomFlags (cache : String → List PartRec) (tree : List BomNode) : Bool × Bool :=
  bomFlagsGo cache tree (true, true)

/-- Whether push_bom issues the `{"validated_bom": True}` patch on the parent. -/
def push_bom_sets_validated (cache : String → List PartRec) (tree : List BomNode) : Bool :=
  !tree.isEmpty && (bomFlags cache tree).2 && (bomFlags cache tree).1

theorem bomFlagsGo_spec (cache : String → List PartRec) :
    ∀ (tree : List BomNode) (av af : Bool),
      bomFlagsGo cache tree (av, af) =
        (av && tree.all (fun n =>
            !(resolveSubPart (cache n.sub_name) n.sub_IPN n.sub_revision).isEmpty &&
              n.validated),
          af && tree.all (fun n =>
            !(resolveSubPart (cache n.sub_name) n.sub_IPN n.sub_revision).isEmpty)) := by
  intro tree
  induction tree with
  | nil => intro av af; simp [bomFlagsGo]
  | cons node rest ih =>
    intro av af
    simp only [bomFlagsGo, List.all_cons]
    by_cases he : (resolveSubPart (cache node.sub_name) node.sub_IPN node.sub_revision).isEmpty
      = true
    · rw [if_pos he, ih, he]
      simp
    · have he' : (resolveSubPart (cache node.sub_name) node.sub_IPN
          node.sub_revision).isEmpty = false := by
        revert he
        cases (resolveSubPart (cache node.sub_name) node.sub_IPN node.sub_revision).isEmpty <;>
          simp
      rw [if_neg he, ih, he']
      simp [Bool.and_assoc]

def subNoBom : PartRec := ⟨5, "Sub", "", "", false⟩

def subCache : String → List PartRec := fun n => if n = "Sub" then [subNoBom] else []

def singleLine : BomNode := ⟨1, "", true, true, "Sub", "", ""⟩

/-- C4 counterexample: a BOM with one resolved, validated line whose
referenced sub-item carries validated_bom = false still causes push_bom to
set the parent's validated_bom flag to true — the sub-item's own
validated_bom is never consulted. -/
theorem validated_bom_ignores_subitem_flag :
    push_bom_sets_validated subCache [singleLine] = true ∧
      resolveSubPart (subCache "Sub") "" "" = [subNoBom] ∧
      subNoBom.validated_bom = false := by
  decide

/-- C4 (amended): push_bom sets validated_bom true iff the BOM is nonempty,
every line's sub-part resolves, and every line's validated flag is true;
the referenced sub-items' own validated_bom flags are not consulted, and
when the condition fails the flag is left unchanged rather than cleared. -/
theorem push_bom_validated_iff (cache : String → List PartRec) (tree : List BomNode) :
    push_bom_sets_validated cache tree = true ↔
      (tree.isEmpty = false ∧ ∀ node ∈ tree,
        (resolveSubPart (cache node.sub_name) node.sub_IPN node.sub_revision).isEmpty = false ∧
          node.validated = true) := by
  simp only [push_bom_sets_validated, bomFlags, bomFlagsGo_spec cache tree true true,
    Bool.true_and, Bool.and_eq_true, List.all_eq_true, Bool.not_eq_true']
  constructor
  · rintro ⟨⟨hne, hpf⟩, hpv⟩
    exact ⟨hne, fun node hm => hpv node hm⟩
  · rintro ⟨hne, hall⟩
    exact ⟨⟨hne, fun node hm => (hall node hm).1⟩, fun node hm => hall node hm⟩

/-! ## robust_request (json_to_inv-parts.py)

    for attempt in range(max_retries):          # max_retries = 5
        r = requests.request(method, url, ...)
        if r.status_code in (200, 201, 204):
            return r
        if r.status_code in (502, 503, 504, 429) or r.status_code >= 500:
            ... time.sleep(delay); continue
        print(f"API error {r.status_code}: {r.text}")
        sys.exit(1)
    sys.exit(1)

`resp` maps the attempt index to the status code the server returns. -/

def isSuccessStatus (s : Nat) : Bool := s == 200 || s == 201 || s == 204

def isTransientStatus (s : Nat) : Bool :=
  s == 502 || s == 503 || s == 504 || s == 429 || decide (500 ≤ s)

inductive ReqOutcome
  | ok (attempts : Nat)
  | exitProcess (attempts : Nat)
deriving DecidableEq

def robustRequestGo (resp : Nat → Nat) : Nat → Nat → ReqOutcome
  | attempt, 0 => ReqOutcome.exitProcess attempt
  | attempt, remaining + 1 =>
    if isSuccessStatus (resp attempt) then ReqOutcome.ok (attempt + 1)
    else if isTransientStatus (resp attempt) then robustRequestGo resp (attempt + 1) remaining
    else ReqOutcome.exitProcess (attempt + 1)

def robust_request (resp : Nat → Nat) : ReqOutcome :=
  robustRequestGo resp 0 5

/-- The per-item traversal: each item issues its request; `sys.exit` inside
robust_request terminates the whole process, truncating the run. -/
def processRun : List (Nat → Nat) → List ReqOutcome
  | [] => []
  | o :: os =>
    match robust_request o with
    | ReqOutcome.ok a => ReqOutcome.ok a :: processRun os
    | ReqOutcome.exitProcess a => [ReqOutcome.exitProcess a]

/-- C9 counterexample: the first item receives a 400; the process exits after
a single attempt and the second, unaffected item is never processed — the
run does not continue to completion. -/
theorem http_4xx_aborts_run :
    processRun [fun _ => 400, fun _ => 200] = [ReqOutcome.exitProcess 1] ∧
      processRun [fun _ => 200, fun _ => 200] = [ReqOutcome.ok 1, ReqOutcome.ok 1] := by
  constructor <;> rfl

/-- C9 (amended): a 4xx response other than 429 is indeed never retried —
robust_request stops after its single attempt — but instead of being fatal
only for the current item it exits the whole process (sys.exit), so no
later item of the run is processed. -/
theorem http_4xx_fatal_no_retry (resp : Nat → Nat) (os : List (Nat → Nat))
    (h400 : 400 ≤ resp 0) (h500 : resp 0 < 500) (h429 : resp 0 ≠ 429) :
    robust_request resp = ReqOutcome.exitProcess 1 ∧
      processRun (resp :: os) = [ReqOutcome.exitProcess 1] := by
  have hs : isSuccessStatus (resp 0) = false := by
    simp only [isSuccessStatus, Bool.or_eq_false_iff, beq_eq_false_iff_ne, ne_eq]
    omega
  have ht : isTransientStatus (resp 0) = false := by
    simp only [isTransientStatus, Bool.or_eq_false_iff, beq_eq_false_iff_ne, ne_eq,
      decide_eq_false_iff_not, not_le]
    omega
  have hr : robust_request resp = ReqOutcome.exitProcess 1 := by
    simp [robust_request, robustRequestGo, hs, ht]
  exact ⟨hr, by simp [processRun, hr]⟩

theorem http_4xx_fatal_no_retry_witness :
    (400 ≤ 403 ∧ 403 < 500 ∧ (403 : Nat) ≠ 429) ∧
      (robust_request (fun _ => 403) = ReqOutcome.exitProcess 1 ∧
        processRun [fun _ => 403] = [ReqOutcome.exitProcess 1]) :=
  ⟨⟨by decide, by decide, by decide⟩,
    http_4xx_fatal_no_retry (fun _ => 403) [] (by decide) (by decide) (by decide)⟩

/-! ## Price-break aggregation (inv-parts_to_json.py, fetch_suppliers)

    pb_by_quantity = defaultdict(list)
    for pb in price_breaks:
        pb_by_quantity[pb.get('quantity', 0)].append(pb)
    for q, pbs in pb_by_quantity.items():
        selected = max(pbs, key=lambda x: x.get('updated', ''))
        sp_details['price_breaks'].append({"quantity": q, "price": selected...,
                                           "price_currency": selected...})
    sp_details['price_breaks'].sort(key=lambda x: x['quantity'])

Dict iteration order is insertion order: the keys are the quantities in
order of first occurrence; each group keeps encounter order; Python's
`max` keeps the first element whose key is maximal; `updated` strings are
compared lexicographically. -/

structure RawPB where
  quantity : Nat
  price : Int
  price_currency : String
  updated : String
deriving DecidableEq

structure OutPB where
  quantity : Nat
  price : Int
  price_currency : String
deriving DecidableEq

/-- Python's lexicographic `<` on strings, used via `max(..., key=...)`. -/
def lexLtChars : List Char → List Char → Bool
  | [], [] => false
  | [], _ :: _ => true
  | _ :: _, [] => false
  | a :: as, b :: bs => if a < b then true else if a = b then lexLtChars as bs else false

def lexLt (a b : String) : Bool := lexLtChars a.toList b.toList

theorem lexLtChars_irrefl : ∀ l : List Char, lexLtChars l l = false := by
  intro l
  induction l with
  | nil => rfl
  | cons a as ih => simp [lexLtChars, lt_irrefl, ih]

theorem lexLtChars_trans : ∀ a b c : List Char,
    lexLtChars a b = true → lexLtChars b c = true → lexLtChars a c = true := by
  intro a
  induction a with
  | nil =>
    intro b c hab hbc
    cases b with
    | nil => simp [lexLtChars] at hab
    | cons y ys =>
      cases c with
      | nil => simp [lexLtChars] at hbc
      | cons z zs => simp [lexLtChars]
  | cons x xs ih =>
    intro b c hab hbc
    cases b with
    | nil => simp [lexLtChars] at hab
    | cons y ys =>
      cases c with
      | nil => simp [lexLtChars] at hbc
      | cons z zs =>
        simp only [lexLtChars] at hab hbc ⊢
        by_cases hxy : x < y
        · by_cases hyz : y < z
          · rw [if_pos (lt_trans hxy hyz)]
          · rw [if_neg hyz] at hbc
            by_cases hyz2 : y = z
            · rw [if_pos (hyz2 ▸ hxy)]
            · rw [if_neg hyz2] at hbc
              exact absurd hbc (by simp)
        · rw [if_neg hxy] at hab
          by_cases hxy2 : x = y
          · rw [if_pos hxy2] at hab
            by_cases hyz : y < z
            · rw [if_pos (hxy2 ▸ hyz)]
            · rw [if_neg hyz] at hbc
              by_cases hyz2 : y = z
              · have hxz : x = z := hxy2.trans hyz2
                rw [if_neg (by rw [hxz]; exact lt_irrefl z), if_pos hxz]
                rw [if_pos hyz2] at hbc
                exact ih ys zs hab hbc
              · rw [if_neg hyz2] at hbc
                exact absurd hbc (by simp)
          · rw [if_neg hxy2] at hab
            exact absurd hab (by simp)

theorem lexLt_trans (a b c : String) (h1 : lexLt a b = true) (h2 : lexLt b c = true) :
    lexLt a c = true :=
  lexLtChars_trans _ _ _ h1 h2

theorem lexLt_irrefl (a : String) : lexLt a a = false :=
  lexLtChars_irrefl _

/-- Python `max(pbs, key=lambda x: x.get('updated', ''))`: keeps the first
element whose key is maximal. -/
def maxByUpdated (h : RawPB) (t : List RawPB) : RawPB :=
  t.foldl (fun b x => if lexLt b.updated x.updated then x else b) h

theorem foldl_maxBy_spec :
    ∀ (t : List RawPB) (best : RawPB) (l0 : List RawPB),
      best ∈ l0 → (∀ x ∈ l0, lexLt best.updated x.updated = false) →
      (t.foldl (fun b x => if lexLt b.updated x.updated then x else b) best) ∈ l0 ++ t ∧
        ∀ x ∈ l0 ++ t,
          lexLt (t.foldl (fun b x => if lexLt b.updated x.updated then x else b) best).updated
            x.updated = false := by
  intro t
  induction t with
  | nil =>
    intro best l0 hmem hinv
    simp only [List.foldl_nil, List.append_nil]
    exact ⟨hmem, hinv⟩
  | cons x ts ih =>
    intro best l0 hmem hinv
    simp only [List.foldl_cons]
    rw [List.append_cons]
    by_cases hbx : lexLt best.updated x.updated = true
    · rw [if_pos hbx]
      refine ih x (l0 ++ [x]) (by simp) ?_
      intro y hy
      rcases List.mem_append.mp hy with hy0 | hyx
      · cases hxy : lexLt x.updated y.updated with
        | false => rfl
        | true =>
          have hby := lexLt_trans _ _ _ hbx hxy
          rw [hinv y hy0] at hby
          exact absurd hby (by simp)
      · simp only [List.mem_singleton] at hyx
        rw [hyx]
        exact lexLt_irrefl _
    · rw [if_neg hbx]
      have hbx' : lexLt best.updated x.updated = false := Bool.eq_false_iff.mpr hbx
      refine ih best (l0 ++ [x]) (List.mem_append.mpr (Or.inl hmem)) ?_
      intro y hy
      rcases List.mem_append.mp hy with hy0 | hyx
      · exact hinv y hy0
      · simp only [List.mem_singleton] at hyx
        rw [hyx]
        exact hbx'

theorem maxByUpdated_spec (h : RawPB) (t : List RawPB) :
    maxByUpdated h t ∈ h :: t ∧
      ∀ x ∈ h :: t, lexLt (maxByUpdated h t).updated x.updated = false := by
  have hres := foldl_maxBy_spec t h [h] (by simp) ?_
  · simpa [maxByUpdated] using hres
  · intro x hx
    simp only [List.mem_singleton] at hx
    rw [hx]
    exact lexLt_irrefl _

/-- Dict-key view of the grouping: quantities in order of first occurrence. -/
def dedupKeysGo (seen : List Nat) : List Nat → List Nat
  | [] => []
  | q :: qs => if q ∈ seen then dedupKeysGo seen qs else q :: dedupKeysGo (q :: seen) qs

def firstOccKeys (raw : List RawPB) : List Nat :=
  dedupKeysGo [] (raw.map (fun pb => pb.quantity))

def groupFor (raw : List RawPB) (q : Nat) : List RawPB :=
  raw.filter (fun pb => pb.quantity == q)

def rowFor (raw : List RawPB) (q : Nat) : Option OutPB :=
  match groupFor raw q with
  | [] => none
  | h :: t => some ⟨q, (maxByUpdated h t).price, (maxByUpdated h t).price_currency⟩

def aggregateRows (raw : List RawPB) : List OutPB :=
  (firstOccKeys raw).filterMap (rowFor raw)

def pbLe (a b : OutPB) : Prop := a.quantity ≤ b.quantity

instance : DecidableRel pbLe := fun a b => Nat.decLe a.quantity b.quantity

instance : IsTotal OutPB pbLe := ⟨fun a b => Nat.le_total a.quantity b.quantity⟩

instance : IsTrans OutPB pbLe := ⟨fun _ _ _ hab hbc => Nat.le_trans hab hbc⟩

/-- The aggregated, deduplicated, quantity-sorted price-break rows. -/
def aggregate (raw : List RawPB) : List OutPB :=
  (aggregateRows raw).insertionSort pbLe

theorem mem_dedupKeysGo (x : Nat) :
    ∀ (l seen : List Nat), x ∈ dedupKeysGo seen l ↔ (x ∈ l ∧ x ∉ seen) := by
  intro l
  induction l with
  | nil => intro seen; simp [dedupKeysGo]
  | cons q qs ih =>
    intro seen
    simp only [dedupKeysGo]
    by_cases hq : q ∈ seen
    · rw [if_pos hq, ih]
      constructor
      · rintro ⟨h1, h2⟩
        exact ⟨List.mem_cons_of_mem q h1, h2⟩
      · rintro ⟨h1, h2⟩
        rcases List.mem_cons.mp h1 with hxq | h1
        · rw [hxq] at h2; exact absurd hq h2
        · exact ⟨h1, h2⟩
    · rw [if_neg hq]
      constructor
      · intro hm
        rcases List.mem_cons.mp hm with hxq | hm
        · rw [hxq]
          exact ⟨List.mem_cons_self q qs, hq⟩
        · have hrec := (ih (q :: seen)).mp hm
          exact ⟨List.mem_cons_of_mem q hrec.1,
            fun hx => hrec.2 (List.mem_cons_of_mem q hx)⟩
      · rintro ⟨h1, h2⟩
        by_cases hxq : x = q
        · rw [hxq]; exact List.mem_cons_self q _
        · rcases List.mem_cons.mp h1 with hxq2 | h1
          · exact absurd hxq2 hxq
          · refine List.mem_cons_of_mem q ((ih (q :: seen)).mpr ⟨h1, ?_⟩)
            intro hx
            rcases List.mem_cons.mp hx with h | h
            · exact hxq h
            · exact h2 h

theorem nodup_dedupKeysGo : ∀ (l seen : List Nat), (dedupKeysGo seen l).Nodup := by
  intro l
  induction l with
  | nil => intro seen; simp [dedupKeysGo]
  | cons q qs ih =>
    intro seen
    simp only [dedupKeysGo]
    by_cases hq : q ∈ seen
    · rw [if_pos hq]; exact ih seen
    · rw [if_neg hq, List.nodup_cons]
      exact ⟨fun hmem => ((mem_dedupKeysGo q qs (q :: seen)).mp hmem).2
          (List.mem_cons_self q seen),
        ih (q :: seen)⟩

theorem mem_firstOccKeys (q : Nat) (raw : List RawPB) :
    q ∈ firstOccKeys raw ↔ q ∈ raw.map (fun pb => pb.quantity) := by
  rw [firstOccKeys, mem_dedupKeysGo]
  simp

theorem rowFor_quantity (raw : List RawPB) (q : Nat) (r : OutPB) (h : rowFor raw q = some r) :
    r.quantity = q := by
  simp only [rowFor] at h
  cases hg : groupFor raw q with
  | nil => simp [hg] at h
  | cons a t =>
    simp only [hg, Option.some.injEq] at h
    rw [← h]

theorem rowFor_mem_some (raw : List RawPB) (q : Nat)
    (hq : q ∈ raw.map (fun pb => pb.quantity)) : ∃ r, rowFor raw q = some r := by
  simp only [List.mem_map] at hq
  obtain ⟨pb, hpb, hpq⟩ := hq
  have hmem : pb ∈ groupFor raw q := List.mem_filter.mpr ⟨hpb, by simp [hpq]⟩
  cases hg : groupFor raw q with
  | nil => rw [hg] at hmem; exact absurd hmem (List.not_mem_nil pb)
  | cons a t =>
    exact ⟨⟨q, (maxByUpdated a t).price, (maxByUpdated a t).price_currency⟩,
      by simp only [rowFor, hg]⟩

theorem filterMap_rowFor_quantities (raw : List RawPB) :
    ∀ keys : List Nat, (∀ k ∈ keys, ∃ r, rowFor raw k = some r) →
      (keys.filterMap (rowFor raw)).map (fun r => r.quantity) = keys := by
  intro keys
  induction keys with
  | nil => intro _; simp
  | cons k ks ih =>
    intro hall
    obtain ⟨r, hr⟩ := hall k (List.mem_cons_self k ks)
    simp only [List.filterMap_cons, hr, List.map_cons]
    rw [rowFor_quantity raw k r hr, ih (fun k' hk' => hall k' (List.mem_cons_of_mem k hk'))]

/-- C6: for every raw price-break list and every quantity Q present in it,
the aggregation emits exactly one row for Q, that row carries the price and
currency of a group member whose 'updated' marker is lexicographically
maximal among all rows of quantity Q, and the emitted rows are sorted
strictly ascending by quantity (one row per distinct quantity). -/
theorem aggregate_dedup (raw : List RawPB) (q : Nat)
    (hq : q ∈ raw.map (fun pb => pb.quantity)) :
    (aggregate raw).countP (fun r => r.quantity == q) = 1 ∧
      (∀ r ∈ aggregate raw, r.quantity = q →
        ∃ sel ∈ raw, sel.quantity = q ∧ r.price = sel.price ∧
          r.price_currency = sel.price_currency ∧
          ∀ x ∈ raw, x.quantity = q → lexLt sel.updated x.updated = false) ∧
      (aggregate raw).Pairwise (fun a b => a.quantity < b.quantity) := by
  have hall : ∀ k ∈ firstOccKeys raw, ∃ r, rowFor raw k = some r := fun k hk =>
    rowFor_mem_some raw k ((mem_firstOccKeys k raw).mp hk)
  have hmapq : (aggregateRows raw).map (fun r => r.quantity) = firstOccKeys raw :=
    filterMap_rowFor_quantities raw (firstOccKeys raw) hall
  have hnodupKeys : (firstOccKeys raw).Nodup := nodup_dedupKeysGo _ []
  have hperm : (aggregate raw).Perm (aggregateRows raw) := List.perm_insertionSort pbLe _
  refine ⟨?_, ?_, ?_⟩
  · rw [hperm.countP_eq]
    have h1 : (aggregateRows raw).countP (fun r => r.quantity == q) =
        ((aggregateRows raw).map (fun r => r.quantity)).countP (fun n => n == q) := by
      rw [List.countP_map]
      rfl
    rw [h1, hmapq]
    exact List.count_eq_one_of_mem hnodupKeys ((mem_firstOccKeys q raw).mpr hq)
  · intro r hr hrq
    have hr' : r ∈ aggregateRows raw := hperm.mem_iff.mp hr
    obtain ⟨k, _, hrow⟩ := List.mem_filterMap.mp hr'
    have hkq : k = q := by rw [← hrq, rowFor_quantity raw k r hrow]
    rw [hkq] at hrow
    simp only [rowFor] at hrow
    cases hg : groupFor raw q with
    | nil => simp [hg] at hrow
    | cons a t =>
      simp only [hg, Option.some.injEq] at hrow
      obtain ⟨hsmem, hsmax⟩ := maxByUpdated_spec a t
      rw [← hg] at hsmem hsmax
      have hsel := List.mem_filter.mp hsmem
      refine ⟨maxByUpdated a t, hsel.1, by simpa using hsel.2, ?_, ?_, ?_⟩
      · rw [← hrow]
      · rw [← hrow]
      · intro x hx hxq
        exact hsmax x (List.mem_filter.mpr ⟨hx, by simp [hxq]⟩)
  · have hsorted : (aggregate raw).Sorted pbLe := List.sorted_insertionSort pbLe _
    have hnd : ((aggregate raw).map (fun r => r.quantity)).Nodup := by
      have hpm : ((aggregate raw).map (fun r => r.quantity)).Perm
          ((aggregateRows raw).map (fun r => r.quantity)) := hperm.map _
      rw [hmapq] at hpm
      exact hpm.symm.nodup hnodupKeys
    have hne : (aggregate raw).Pairwise (fun a b => a.quantity ≠ b.quantity) :=
      List.pairwise_map.mp hnd
    exact (List.Pairwise.and hsorted hne).imp (fun h => lt_of_le_of_ne h.1 h.2)

def rawSample : List RawPB :=
  [⟨10, 5, "USD", "2024-01-01"⟩, ⟨10, 7, "USD", "2024-02-01"⟩]

theorem aggregate_dedup_witness :
    10 ∈ (rawSample.map (fun pb => pb.quantity)) ∧
      ((aggregate rawSample).countP (fun r => r.quantity == 10) = 1 ∧
        (∀ r ∈ aggregate rawSample, r.quantity = 10 →
          ∃ sel ∈ rawSample, sel.quantity = 10 ∧ r.price = sel.price ∧
            r.price_currency = sel.price_currency ∧
            ∀ x ∈ rawSample, x.quantity = 10 → lexLt sel.updated x.updated = false) ∧
        (aggregate rawSample).Pairwise (fun a b => a.quantity < b.quantity)) :=
  ⟨by decide, aggregate_dedup rawSample 10 (by decide)⟩

/-! ## Supplier / price-break push state

Remote state visible to the supplier-sync layer: companies, supplier
parts, manufacturer parts and price breaks, with server-assigned pks
(fresh pks come from `nextPk`).  Operations record each POST (create)
and PATCH (update) issued. -/

structure CompanyRec where
  pk : Nat
  name : String
  is_supplier : Bool
  is_manufacturer : Bool
deriving DecidableEq

structure SupplierPartRec where
  pk : Nat
  part : Nat
  supplier : Nat
  SKU : String
  description : String
  link : String
  packaging : String
  note : String
  manufacturer_part : Option Nat
deriving DecidableEq

structure PriceBreakRec where
  pk : Nat
  sp : Nat
  quantity : Nat
  price : Int
  price_currency : String
deriving DecidableEq

structure ManufacturerPartRec where
  pk : Nat
  part : Nat
  manufacturer : Nat
  MPN : String
deriving DecidableEq

structure SyncSt where
  companies : List CompanyRec
  supplierParts : List SupplierPartRec
  manufacturerParts : List ManufacturerPartRec
  priceBreaks : List PriceBreakRec
  nextPk : Nat
deriving DecidableEq

inductive SyncOp
  | createCompany
  | createSupplierPart
  | createManufacturerPart
  | createPriceBreak
  | patchSupplierPart
  | patchPriceBreak
deriving DecidableEq

def SyncOp.isCreate : SyncOp → Bool
  | createCompany => true
  | createSupplierPart => true
  | createManufacturerPart => true
  | createPriceBreak => true
  | patchSupplierPart => false
  | patchPriceBreak => false

def countCreates (ops : List SyncOp) : Nat := ops.countP SyncOp.isCreate

structure PBInput where
  quantity : Nat
  price : Int
  price_currency : String
deriving DecidableEq

structure SupplierInput where
  supplier_name : String
  SKU : String
  description : String
  link : String
  packaging : String
  note : String
  price_breaks : List PBInput
deriving DecidableEq

/-! ### json_to_inv-parts.py: get_or_create_company, get_or_create_supplier_part,
sync_price_breaks (force_price = False) -/

def companyMatch (name : String) (is_supplier : Bool) (c : CompanyRec) : Bool :=
  c.name == name && (if is_supplier then c.is_supplier else c.is_manufacturer)

def get_or_create_company (name : String) (is_supplier : Bool) (st : SyncSt) :
    Nat × SyncSt × List SyncOp :=
  match st.companies.find? (companyMatch name is_supplier) with
  | some c => (c.pk, st, [])
  | none =>
    (st.nextPk,
      { st with
        companies := st.companies ++ [⟨st.nextPk, name, is_supplier, !is_supplier⟩],
        nextPk := st.nextPk + 1 },
      [SyncOp.createCompany])

def spMatch (part_pk supplier_pk : Nat) (sku : String) (sp : SupplierPartRec) : Bool :=
  sp.part == part_pk && sp.supplier == supplier_pk && (sku == "" || sp.SKU == sku)

/-- The PATCH payload applied to the matching record (fields only patched
when the local value is non-empty and differs from the remote one). -/
def spApplyPatch (supp : SupplierInput) (mp_pk : Option Nat) (sp r : SupplierPartRec) :
    SupplierPartRec :=
  { r with
    description := if supp.description != "" && sp.description != supp.description
      then supp.description else r.description,
    link := if supp.link != "" && sp.link != supp.link then supp.link else r.link,
    packaging := if supp.packaging != "" && sp.packaging != supp.packaging
      then supp.packaging else r.packaging,
    note := if supp.note != "" && sp.note != supp.note then supp.note else r.note,
    manufacturer_part :=
      match mp_pk with
      | some mpk => if sp.manufacturer_part ≠ some mpk then some mpk else r.manufacturer_part
      | none => r.manufacturer_part }

/-- Whether the PATCH payload is non-empty. -/
def spPatchNeeded (supp : SupplierInput) (mp_pk : Option Nat) (sp : SupplierPartRec) : Bool :=
  (supp.description != "" && sp.description != supp.description) ||
    (supp.link != "" && sp.link != supp.link) ||
    (supp.packaging != "" && sp.packaging != supp.packaging) ||
    (supp.note != "" && sp.note != supp.note) ||
    (match mp_pk with
     | some mpk => decide (sp.manufacturer_part ≠ some mpk)
     | none => false)

def get_or_create_supplier_part (part_pk : Nat) (supp : SupplierInput) (mp_pk : Option Nat)
    (st : SyncSt) : Nat × SyncSt × List SyncOp :=
  match get_or_create_company supp.supplier_name true st with
  | (supplier_pk, st1, ops1) =>
    match st1.supplierParts.filter (spMatch part_pk supplier_pk supp.SKU) with
    | sp :: _ =>
      if spPatchNeeded supp mp_pk sp then
        (sp.pk,
          { st1 with supplierParts := st1.supplierParts.map (fun r =>
              if r.pk == sp.pk then spApplyPatch supp mp_pk sp r else r) },
          ops1 ++ [SyncOp.patchSupplierPart])
      else (sp.pk, st1, ops1)
    | [] =>
      (st1.nextPk,
        { st1 with
          supplierParts := st1.supplierParts ++
            [⟨st1.nextPk, part_pk, supplier_pk, supp.SKU, supp.description, supp.link,
              supp.packaging, supp.note, mp_pk⟩],
          nextPk := st1.nextPk + 1 },
        ops1 ++ [SyncOp.createSupplierPart])

def pbKey (pb : PriceBreakRec) : Nat × Int × String := (pb.quantity, pb.price, pb.price_currency)

/-- The `(quantity, price, currency)` keys the remote currently holds for one
supplier part. -/
def stateKeys (spk : Nat) (st : SyncSt) : List (Nat × Int × String) :=
  (st.priceBreaks.filter (fun r => r.sp == spk)).map pbKey

def sync_price_breaks_go (sp_pk : Nat) (existing_keys : List (Nat × Int × String)) :
    List PBInput → SyncSt → SyncSt × List SyncOp
  | [], st => (st, [])
  | pb :: rest, st =>
    if (pb.quantity, pb.price, pb.price_currency) ∈ existing_keys then
      sync_price_breaks_go sp_pk existing_keys rest st
    else
      let st' := { st with
        priceBreaks := st.priceBreaks ++
          [⟨st.nextPk, sp_pk, pb.quantity, pb.price, pb.price_currency⟩],
        nextPk := st.nextPk + 1 }
      let r := sync_price_breaks_go sp_pk existing_keys rest st'
      (r.1, SyncOp.createPriceBreak :: r.2)

def sync_price_breaks (sp_pk : Nat) (pbs : List PBInput) (st : SyncSt) : SyncSt × List SyncOp :=
  sync_price_breaks_go sp_pk (stateKeys sp_pk st) pbs st

/-- One supplier's sync step in push_part_group: resolve-or-create the
supplier part, then push its price breaks. -/
def syncSupplier (part_pk : Nat) (supp : SupplierInput) (mp_pk : Option Nat) (st : SyncSt) :
    SyncSt × List SyncOp :=
  match get_or_create_supplier_part part_pk supp mp_pk st with
  | (sp_pk, st1, ops1) =>
    match sync_price_breaks sp_pk supp.price_breaks st1 with
    | (st2, ops2) => (st2, ops1 ++ ops2)

theorem find?_append_of_none {α : Type} (p : α → Bool) :
    ∀ (l1 l2 : List α), l1.find? p = none → (l1 ++ l2).find? p = l2.find? p := by
  intro l1 l2
  induction l1 with
  | nil => intro _; rfl
  | cons x xs ih =>
    intro h
    simp only [List.find?_cons] at h
    simp only [List.cons_append, List.find?_cons]
    cases hp : p x with
    | true => simp only [hp] at h; exact absurd h (by simp)
    | false => simp only [hp] at h ⊢; exact ih h

theorem get_or_create_company_spec (name : String) (b : Bool) (st : SyncSt)
    (pk : Nat) (st' : SyncSt) (ops : List SyncOp)
    (h : get_or_create_company name b st = (pk, st', ops)) :
    (∃ c, st'.companies.find? (companyMatch name b) = some c ∧ c.pk = pk) ∧
      st'.supplierParts = st.supplierParts ∧ st'.priceBreaks = st.priceBreaks := by
  simp only [get_or_create_company] at h
  cases hf : st.companies.find? (companyMatch name b) with
  | some c =>
    simp only [hf, Prod.mk.injEq] at h
    obtain ⟨h1, h2, _⟩ := h
    rw [← h2, ← h1]
    exact ⟨⟨c, hf, rfl⟩, rfl, rfl⟩
  | none =>
    simp only [hf, Prod.mk.injEq] at h
    obtain ⟨h1, h2, _⟩ := h
    rw [← h2, ← h1]
    refine ⟨⟨⟨st.nextPk, name, b, !b⟩, ?_, rfl⟩, rfl, rfl⟩
    rw [find?_append_of_none (companyMatch name b) st.companies _ hf]
    simp only [List.find?_cons]
    have : companyMatch name b ⟨st.nextPk, name, b, !b⟩ = true := by
      simp only [companyMatch]
      cases b <;> simp
    rw [this]

theorem get_or_create_company_found (name : String) (b : Bool) (T : SyncSt) (c : CompanyRec)
    (hf : T.companies.find? (companyMatch name b) = some c) :
    get_or_create_company name b T = (c.pk, T, []) := by
  simp only [get_or_create_company, hf]

theorem spMatch_map_patch (part cpk : Nat) (sku : String) (supp : SupplierInput)
    (mp : Option Nat) (sp r : SupplierPartRec) :
    spMatch part cpk sku (if r.pk == sp.pk then spApplyPatch supp mp sp r else r) =
      spMatch part cpk sku r := by
  by_cases h : (r.pk == sp.pk) = true
  · rw [if_pos h]; rfl
  · rw [if_neg h]

theorem get_or_create_supplier_part_spec (part : Nat) (supp : SupplierInput) (mp : Option Nat)
    (st : SyncSt) (spk : Nat) (st2 : SyncSt) (ops : List SyncOp)
    (h : get_or_create_supplier_part part supp mp st = (spk, st2, ops)) :
    (∃ c, st2.companies.find? (companyMatch supp.supplier_name true) = some c ∧
      ∃ sp rest, st2.supplierParts.filter (spMatch part c.pk supp.SKU) = sp :: rest ∧
        sp.pk = spk) ∧
      st2.priceBreaks = st.priceBreaks := by
  simp only [get_or_create_supplier_part] at h
  rcases hc : get_or_create_company supp.supplier_name true st with ⟨cpk, st1, ops1⟩
  obtain ⟨⟨c, hfc, hcpk⟩, _, hpb1⟩ := get_or_create_company_spec _ _ _ _ _ _ hc
  rw [hc] at h
  cases hfil : st1.supplierParts.filter (spMatch part cpk supp.SKU) with
  | cons sp rest =>
    simp only [hfil] at h
    by_cases hpn : spPatchNeeded supp mp sp = true
    · rw [if_pos hpn] at h
      simp only [Prod.mk.injEq] at h
      obtain ⟨h1, h2, _⟩ := h
      rw [← h2, ← h1]
      refine ⟨⟨c, hfc, ?_⟩, hpb1⟩
      rw [hcpk]
      refine ⟨spApplyPatch supp mp sp sp, (sp :: rest).tail.map (fun r =>
        if r.pk == sp.pk then spApplyPatch supp mp sp r else r), ?_, rfl⟩
      have hcomm : (st1.supplierParts.map (fun r =>
          if r.pk == sp.pk then spApplyPatch supp mp sp r else r)).filter
            (spMatch part cpk supp.SKU) =
          (st1.supplierParts.filter (spMatch part cpk supp.SKU)).map (fun r =>
            if r.pk == sp.pk then spApplyPatch supp mp sp r else r) := by
        rw [List.filter_map]
        have : (spMatch part cpk supp.SKU) ∘ (fun r =>
            if r.pk == sp.pk then spApplyPatch supp mp sp r else r) =
            spMatch part cpk supp.SKU := by
          funext r
          exact spMatch_map_patch part cpk supp.SKU supp mp sp r
        rw [this]
      rw [hcomm, hfil]
      simp
    · rw [if_neg hpn] at h
      simp only [Prod.mk.injEq] at h
      obtain ⟨h1, h2, _⟩ := h
      rw [← h2, ← h1]
      refine ⟨⟨c, hfc, ?_⟩, hpb1⟩
      rw [hcpk]
      exact ⟨sp, rest, hfil, rfl⟩
  | nil =>
    simp only [hfil] at h
    simp only [Prod.mk.injEq] at h
    obtain ⟨h1, h2, _⟩ := h
    rw [← h2, ← h1]
    refine ⟨⟨c, hfc, ?_⟩, hpb1⟩
    rw [hcpk]
    refine ⟨⟨st1.nextPk, part, cpk, supp.SKU, supp.description, supp.link,
      supp.packaging, supp.note, mp⟩, [], ?_, rfl⟩
    rw [List.filter_append, hfil]
    simp [spMatch]

theorem get_or_create_supplier_part_found (part : Nat) (supp : SupplierInput) (mp : Option Nat)
    (T : SyncSt) (c : CompanyRec) (sp : SupplierPartRec) (rest : List SupplierPartRec)
    (hfc : T.companies.find? (companyMatch supp.supplier_name true) = some c)
    (hfil : T.supplierParts.filter (spMatch part c.pk supp.SKU) = sp :: rest) :
    ∃ T' ops, get_or_create_supplier_part part supp mp T = (sp.pk, T', ops) ∧
      countCreates ops = 0 ∧ T'.priceBreaks = T.priceBreaks := by
  simp only [get_or_create_supplier_part, get_or_create_company_found _ _ _ _ hfc, hfil]
  by_cases hpn : spPatchNeeded supp mp sp = true
  · rw [if_pos hpn]
    exact ⟨_, _, rfl, rfl, rfl⟩
  · rw [if_neg hpn]
    exact ⟨T, [], rfl, rfl, rfl⟩

theorem sync_price_breaks_go_frame (spk : Nat) (keys : List (Nat × Int × String)) :
    ∀ (pbs : List PBInput) (st : SyncSt),
      (sync_price_breaks_go spk keys pbs st).1.companies = st.companies ∧
        (sync_price_breaks_go spk keys pbs st).1.supplierParts = st.supplierParts := by
  intro pbs
  induction pbs with
  | nil => intro st; exact ⟨rfl, rfl⟩
  | cons pb rest ih =>
    intro st
    simp only [sync_price_breaks_go]
    by_cases hk : (pb.quantity, pb.price, pb.price_currency) ∈ keys
    · rw [if_pos hk]; exact ih st
    · rw [if_neg hk]
      exact ⟨(ih _).1, (ih _).2⟩

theorem sync_price_breaks_go_keys (spk : Nat) (keys : List (Nat × Int × String)) :
    ∀ (pbs : List PBInput) (st : SyncSt), (∀ k ∈ keys, k ∈ stateKeys spk st) →
      (∀ k ∈ stateKeys spk st, k ∈ stateKeys spk (sync_price_breaks_go spk keys pbs st).1) ∧
        (∀ pb ∈ pbs, (pb.quantity, pb.price, pb.price_currency) ∈
          stateKeys spk (sync_price_breaks_go spk keys pbs st).1) := by
  intro pbs
  induction pbs with
  | nil =>
    intro st _
    exact ⟨fun k hk => hk, fun pb hpb => absurd hpb (List.not_mem_nil pb)⟩
  | cons pb rest ih =>
    intro st hkeys
    simp only [sync_price_breaks_go]
    by_cases hk : (pb.quantity, pb.price, pb.price_currency) ∈ keys
    · rw [if_pos hk]
      obtain ⟨hmono, hrest⟩ := ih st hkeys
      refine ⟨hmono, ?_⟩
      intro pb' hpb'
      rcases List.mem_cons.mp hpb' with hpq | hm
      · rw [hpq]; exact hmono _ (hkeys _ hk)
      · exact hrest pb' hm
    · rw [if_neg hk]
      have hkeys' : stateKeys spk ({ st with
          priceBreaks := st.priceBreaks ++
            [⟨st.nextPk, spk, pb.quantity, pb.price, pb.price_currency⟩],
          nextPk := st.nextPk + 1 }) =
          stateKeys spk st ++ [(pb.quantity, pb.price, pb.price_currency)] := by
        simp [stateKeys, List.filter_append, pbKey, List.filter]
      obtain ⟨hmono, hrest⟩ := ih _ (fun k hk' => by
        rw [hkeys']; exact List.mem_append.mpr (Or.inl (hkeys k hk')))
      refine ⟨?_, ?_⟩
      · intro k hk'
        exact hmono k (by rw [hkeys']; exact List.mem_append.mpr (Or.inl hk'))
      · intro pb' hpb'
        rcases List.mem_cons.mp hpb' with hpq | hm
        · rw [hpq]
          exact hmono _ (by rw [hkeys']; exact List.mem_append.mpr (Or.inr (by simp)))
        · exact hrest pb' hm

theorem sync_price_breaks_go_all_present (spk : Nat) (keys : List (Nat × Int × String)) :
    ∀ (pbs : List PBInput) (st : SyncSt),
      (∀ pb ∈ pbs, (pb.quantity, pb.price, pb.price_currency) ∈ keys) →
      sync_price_breaks_go spk keys pbs st = (st, []) := by
  intro pbs
  induction pbs with
  | nil => intro st _; rfl
  | cons pb rest ih =>
    intro st hall
    simp only [sync_price_breaks_go]
    rw [if_pos (hall pb (List.mem_cons_self pb rest))]
    exact ih st (fun pb' hpb' => hall pb' (List.mem_cons_of_mem pb hpb'))

/-- C3 (amended, positive half): re-running json_to_inv-parts.py's supplier
sync (get_or_create_supplier_part followed by sync_price_breaks) on the state
left by the first run performs zero create operations: the supplier part is
found and at most patched, and every price-break key is already present. -/
theorem syncSupplier_second_run_no_creates (part : Nat) (supp : SupplierInput)
    (mp : Option Nat) (st0 : SyncSt) :
    countCreates (syncSupplier part supp mp (syncSupplier part supp mp st0).1).2 = 0 := by
  rcases h1 : get_or_create_supplier_part part supp mp st0 with ⟨spk, st2, ops1⟩
  obtain ⟨⟨c, hfc, sp, rest, hfil, hsppk⟩, _⟩ :=
    get_or_create_supplier_part_spec part supp mp st0 spk st2 ops1 h1
  rcases h2 : sync_price_breaks spk supp.price_breaks st2 with ⟨st3, ops2⟩
  have hst3 : (sync_price_breaks_go spk (stateKeys spk st2) supp.price_breaks st2).1 = st3 := by
    rw [← sync_price_breaks, h2]
  have hframe := sync_price_breaks_go_frame spk (stateKeys spk st2) supp.price_breaks st2
  rw [hst3] at hframe
  have hkeys := sync_price_breaks_go_keys spk (stateKeys spk st2) supp.price_breaks st2
    (fun k hk => hk)
  rw [hst3] at hkeys
  -- run-1 final state facts
  have hfc3 : st3.companies.find? (companyMatch supp.supplier_name true) = some c := by
    rw [hframe.1]; exact hfc
  have hfil3 : st3.supplierParts.filter (spMatch part c.pk supp.SKU) = sp :: rest := by
    rw [hframe.2]; exact hfil
  obtain ⟨T', opsA, hspA, hcA, hpbA⟩ :=
    get_or_create_supplier_part_found part supp mp st3 c sp rest hfc3 hfil3
  have hkeysT' : stateKeys sp.pk T' = stateKeys sp.pk st3 := by
    simp only [stateKeys, hpbA]
  have hallT' : ∀ pb ∈ supp.price_breaks,
      (pb.quantity, pb.price, pb.price_currency) ∈ stateKeys sp.pk T' := by
    intro pb hpb
    rw [hkeysT', hsppk]
    exact hkeys.2 pb hpb
  have hpbrun2 : sync_price_breaks sp.pk supp.price_breaks T' = (T', []) := by
    rw [sync_price_breaks]
    exact sync_price_breaks_go_all_present sp.pk (stateKeys sp.pk T') supp.price_breaks T'
      hallT'
  have hrun1 : (syncSupplier part supp mp st0).1 = st3 := by
    simp only [syncSupplier, h1, h2]
  rw [hrun1]
  simp only [syncSupplier, hspA, hpbrun2, List.append_nil]
  exact hcA

/-! ### json_to_inv-pts.py: push_part supplier section (lines 331-461)

The supplier and manufacturer companies must already exist (sys.exit
otherwise, modelled as `none`); the ManufacturerPart and SupplierPart are
then POSTed unconditionally; price breaks are keyed by quantity
(`{pb['quantity']: pb}` — last row wins), the input list is de-duplicated
keeping the first row per quantity, and rows are created or patched. -/

def sanitize_company_chars (l : List Char) : List Char :=
  (pyStrip ((l.map (fun c => if c = ' ' then '_' else c)).filter (fun c => !(c == '.')))).map
    (fun c => if badFileChar c then '_' else c)

def sanitize_company_name (s : String) : String :=
  ⟨sanitize_company_chars s.toList⟩

structure PtsSupplier where
  supplier_name : String
  manufacturer_name : Option String
  MPN : String
  mp_description : String
  mp_link : String
  SKU : String
  description : String
  link : String
  note : String
  packaging : String
  price_breaks : List PBInput
deriving DecidableEq

def alookup {α : Type} : List (Nat × α) → Nat → Option α
  | [], _ => none
  | (k, v) :: rest, q => if q = k then some v else alookup rest q

def insertReplace {α : Type} : List (Nat × α) → Nat → α → List (Nat × α)
  | [], q, v => [(q, v)]
  | (k, w) :: rest, q, v => if k = q then (k, v) :: rest else (k, w) :: insertReplace rest q v

def insertIfAbsent {α : Type} : List (Nat × α) → Nat → α → List (Nat × α)
  | [], q, v => [(q, v)]
  | (k, w) :: rest, q, v => if k = q then (k, w) :: rest else (k, w) :: insertIfAbsent rest q v

/-- `existing_by_quantity = {pb['quantity']: pb for pb in existing_pbs}`:
the last row per quantity wins. -/
def byQuantity (rows : List PriceBreakRec) : List (Nat × PriceBreakRec) :=
  rows.foldl (fun m pb => insertReplace m pb.quantity pb) []

/-- `unique_pbs`: the first input row per quantity wins. -/
def uniquePbs (pbs : List PBInput) : List (Nat × PBInput) :=
  pbs.foldl (fun m pb => insertIfAbsent m pb.quantity pb) []

def pts_pb_loop (sp_pk : Nat) (existing : List (Nat × PriceBreakRec)) :
    List (Nat × PBInput) → SyncSt → SyncSt × List SyncOp
  | [], st => (st, [])
  | (q, pb) :: rest, st =>
    match alookup existing q with
    | some epb =>
      if epb.price != pb.price || epb.price_currency != pb.price_currency then
        let st' := { st with priceBreaks := st.priceBreaks.map (fun r =>
          if r.pk == epb.pk then
            { r with price := pb.price, price_currency := pb.price_currency }
          else r) }
        let res := pts_pb_loop sp_pk existing rest st'
        (res.1, SyncOp.patchPriceBreak :: res.2)
      else pts_pb_loop sp_pk existing rest st
    | none =>
      let st' := { st with
        priceBreaks := st.priceBreaks ++ [⟨st.nextPk, sp_pk, q, pb.price, pb.price_currency⟩],
        nextPk := st.nextPk + 1 }
      let res := pts_pb_loop sp_pk existing rest st'
      (res.1, SyncOp.createPriceBreak :: res.2)

def pts_price_break_sync (sp_pk : Nat) (pbs : List PBInput) (st : SyncSt) :
    SyncSt × List SyncOp :=
  pts_pb_loop sp_pk (byQuantity (st.priceBreaks.filter (fun r => r.sp == sp_pk)))
    (uniquePbs pbs) st

def pts_push_supplier (part_pk : Nat) (supplier : PtsSupplier) (st : SyncSt) :
    Option (SyncSt × List SyncOp) :=
  let supplier_name := sanitize_company_name supplier.supplier_name
  match st.companies.filter (fun c => c.name == supplier_name && c.is_supplier) with
  | [] => none
  | sc :: _ =>
    let mpStep : Option (Option Nat × SyncSt × List SyncOp) :=
      match supplier.manufacturer_name with
      | none => some (none, st, [])
      | some raw_man =>
        let man_name := sanitize_company_name raw_man
        match st.companies.filter (fun c => c.name == man_name && c.is_manufacturer) with
        | [] => none
        | mc :: _ =>
          some (some st.nextPk,
            { st with
              manufacturerParts := st.manufacturerParts ++
                [⟨st.nextPk, part_pk, mc.pk, supplier.MPN⟩],
              nextPk := st.nextPk + 1 },
            [SyncOp.createManufacturerPart])
    match mpStep with
    | none => none
    | some (mp_pk, st1, ops1) =>
      let sp_pk := st1.nextPk
      let st2 := { st1 with
        supplierParts := st1.supplierParts ++
          [⟨sp_pk, part_pk, sc.pk, supplier.SKU, supplier.description, supplier.link,
            supplier.packaging, supplier.note, mp_pk⟩],
        nextPk := st1.nextPk + 1 }
      let res := pts_price_break_sync sp_pk supplier.price_breaks st2
      some (res.1, ops1 ++ SyncOp.createSupplierPart :: res.2)

def acmeSupplier : PtsSupplier :=
  ⟨"Acme", none, "", "", "", "S1", "", "", "", "", [⟨1, 5, "USD"⟩]⟩

def acmeSt0 : SyncSt := ⟨[⟨1, "Acme", true, false⟩], [], [], [], 10⟩

def acmeSt1 : SyncSt :=
  ⟨[⟨1, "Acme", true, false⟩], [⟨10, 7, 1, "S1", "", "", "", "", none⟩], [],
    [⟨11, 10, 1, 5, "USD"⟩], 12⟩

/-- C3 counterexample: json_to_inv-pts.py's push_part POSTs the SupplierPart
(and its price break) unconditionally, so the second run against the state
left by the first run performs two further create operations instead of
zero. -/
theorem pts_push_supplier_rerun_creates :
    pts_push_supplier 7 acmeSupplier acmeSt0 =
      some (acmeSt1, [SyncOp.createSupplierPart, SyncOp.createPriceBreak]) ∧
      (pts_push_supplier 7 acmeSupplier acmeSt1).map (fun r => countCreates r.2) = some 2 := by
  decide

def pbSt0 : SyncSt := ⟨[], [], [], [⟨1, 7, 10, 1, "USD"⟩], 2⟩

/-- C7 counterexample: json_to_inv-parts.py's sync_price_breaks keys existing
rows by (quantity, price, currency); a local row with an existing quantity
but a changed price is POSTed as a new row, leaving the remote with two
price breaks of quantity 10 for the same supplier part. -/
theorem sync_price_breaks_duplicate_quantity :
    ((sync_price_breaks 7 [⟨10, 2, "USD"⟩] pbSt0).1.priceBreaks.countP
      (fun r => r.sp == 7 && r.quantity == 10)) = 2 := by
  decide

def spQuantities (spk : Nat) (st : SyncSt) : List Nat :=
  (st.priceBreaks.filter (fun r => r.sp == spk)).map (fun r => r.quantity)

theorem alookup_none_iff {α : Type} :
    ∀ (m : List (Nat × α)) (q : Nat), alookup m q = none ↔ q ∉ m.map Prod.fst := by
  intro m
  induction m with
  | nil => intro q; simp [alookup]
  | cons kv rest ih =>
    intro q
    obtain ⟨k, v⟩ := kv
    simp only [alookup, List.map_cons, List.mem_cons]
    by_cases hq : q = k
    · rw [if_pos hq]
      simp [hq]
    · rw [if_neg hq, ih]
      simp [hq]

theorem mem_keys_insertReplace {α : Type} (x : Nat) :
    ∀ (m : List (Nat × α)) (q : Nat) (v : α),
      x ∈ (insertReplace m q v).map Prod.fst ↔ x ∈ m.map Prod.fst ∨ x = q := by
  intro m
  induction m with
  | nil => intro q v; simp [insertReplace]
  | cons kv rest ih =>
    intro q v
    obtain ⟨k, w⟩ := kv
    simp only [insertReplace]
    by_cases hk : k = q
    · rw [if_pos hk]
      subst hk
      simp only [List.map_cons, List.mem_cons]
      tauto
    · rw [if_neg hk]
      simp only [List.map_cons, List.mem_cons, ih]
      tauto

theorem mem_keys_insertIfAbsent {α : Type} (x : Nat) :
    ∀ (m : List (Nat × α)) (q : Nat) (v : α),
      x ∈ (insertIfAbsent m q v).map Prod.fst ↔ x ∈ m.map Prod.fst ∨ x = q := by
  intro m
  induction m with
  | nil => intro q v; simp [insertIfAbsent]
  | cons kv rest ih =>
    intro q v
    obtain ⟨k, w⟩ := kv
    simp only [insertIfAbsent]
    by_cases hk : k = q
    · rw [if_pos hk]
      subst hk
      simp only [List.map_cons, List.mem_cons]
      tauto
    · rw [if_neg hk]
      simp only [List.map_cons, List.mem_cons, ih]
      tauto

theorem mem_keys_byQuantity_aux (x : Nat) :
    ∀ (rows : List PriceBreakRec) (acc : List (Nat × PriceBreakRec)),
      x ∈ (rows.foldl (fun m pb => insertReplace m pb.quantity pb) acc).map Prod.fst ↔
        x ∈ acc.map Prod.fst ∨ x ∈ rows.map (fun r => r.quantity) := by
  intro rows
  induction rows with
  | nil => intro acc; simp
  | cons r rs ih =>
    intro acc
    simp only [List.foldl_cons, List.map_cons, List.mem_cons]
    rw [ih, mem_keys_insertReplace]
    tauto

theorem nodup_keys_insertIfAbsent {α : Type} :
    ∀ (m : List (Nat × α)) (q : Nat) (v : α),
      (m.map Prod.fst).Nodup → ((insertIfAbsent m q v).map Prod.fst).Nodup := by
  intro m
  induction m with
  | nil => intro q v _; simp [insertIfAbsent]
  | cons kv rest ih =>
    intro q v hnd
    obtain ⟨k, w⟩ := kv
    simp only [insertIfAbsent]
    by_cases hk : k = q
    · rw [if_pos hk]; exact hnd
    · rw [if_neg hk]
      simp only [List.map_cons, List.nodup_cons] at hnd ⊢
      refine ⟨?_, ih q v hnd.2⟩
      intro hmem
      rw [mem_keys_insertIfAbsent] at hmem
      rcases hmem with h | h
      · exact hnd.1 h
      · exact hk h

theorem nodup_keys_uniquePbs_aux :
    ∀ (pbs : List PBInput) (acc : List (Nat × PBInput)),
      (acc.map Prod.fst).Nodup →
      ((pbs.foldl (fun m pb => insertIfAbsent m pb.quantity pb) acc).map Prod.fst).Nodup := by
  intro pbs
  induction pbs with
  | nil => intro acc h; exact h
  | cons pb rest ih =>
    intro acc h
    simp only [List.foldl_cons]
    exact ih _ (nodup_keys_insertIfAbsent acc pb.quantity pb h)

theorem spQuantities_patch (spk : Nat) (st : SyncSt) (epk : Nat) (price : Int)
    (cur : String) :
    spQuantities spk ({ st with priceBreaks := st.priceBreaks.map (fun r =>
      if r.pk == epk then { r with price := price, price_currency := cur } else r) }) =
      spQuantities spk st := by
  simp only [spQuantities, List.filter_map]
  have h1 : ((fun r : PriceBreakRec => r.sp == spk) ∘ (fun r =>
      if r.pk == epk then { r with price := price, price_currency := cur } else r)) =
      (fun r : PriceBreakRec => r.sp == spk) := by
    funext r
    by_cases h : r.pk = epk <;> simp [h]
  rw [h1, List.map_map]
  have h2 : ((fun r : PriceBreakRec => r.quantity) ∘ (fun r =>
      if r.pk == epk then { r with price := price, price_currency := cur } else r)) =
      (fun r : PriceBreakRec => r.quantity) := by
    funext r
    by_cases h : r.pk = epk <;> simp [h]
  rw [h2]

theorem spQuantities_create (spk : Nat) (st : SyncSt) (npk q : Nat) (price : Int)
    (cur : String) :
    spQuantities spk ({ st with
        priceBreaks := st.priceBreaks ++ [⟨npk, spk, q, price, cur⟩],
        nextPk := st.nextPk + 1 }) = spQuantities spk st ++ [q] := by
  simp [spQuantities, List.filter_append, List.filter]

theorem pts_pb_loop_nodup (sp_pk : Nat) (existing : List (Nat × PriceBreakRec)) :
    ∀ (ups : List (Nat × PBInput)) (st : SyncSt),
      (spQuantities sp_pk st).Nodup →
      (ups.map Prod.fst).Nodup →
      (∀ qp ∈ ups, alookup existing qp.1 = none → qp.1 ∉ spQuantities sp_pk st) →
      (spQuantities sp_pk (pts_pb_loop sp_pk existing ups st).1).Nodup := by
  intro ups
  induction ups with
  | nil => intro st h1 _ _; exact h1
  | cons qp rest ih =>
    intro st h1 h2 h3
    obtain ⟨q, pb⟩ := qp
    simp only [pts_pb_loop]
    cases hl : alookup existing q with
    | some epb =>
      simp only [hl]
      by_cases hne : (epb.price != pb.price || epb.price_currency != pb.price_currency) = true
      · rw [if_pos hne]
        refine ih _ ?_ (List.nodup_cons.mp h2).2 ?_
        · rw [spQuantities_patch]; exact h1
        · intro qp' hqp' hal
          rw [spQuantities_patch]
          exact h3 qp' (List.mem_cons_of_mem _ hqp') hal
      · rw [if_neg hne]
        exact ih st h1 (List.nodup_cons.mp h2).2
          (fun qp' hqp' hal => h3 qp' (List.mem_cons_of_mem _ hqp') hal)
    | none =>
      simp only [hl]
      have hqnot : q ∉ spQuantities sp_pk st := h3 (q, pb) (List.mem_cons_self _ _) hl
      refine ih _ ?_ (List.nodup_cons.mp h2).2 ?_
      · rw [spQuantities_create]
        simp [List.nodup_append, h1, hqnot]
      · intro qp' hqp' hal
        rw [spQuantities_create]
        intro hmem
        rcases List.mem_append.mp hmem with hm | hm
        · exact h3 qp' (List.mem_cons_of_mem _ hqp') hal hm
        · simp only [List.mem_singleton] at hm
          have hq_mem : qp'.1 ∈ rest.map Prod.fst := List.mem_map.mpr ⟨qp', hqp', rfl⟩
          rw [hm] at hq_mem
          exact (List.nodup_cons.mp h2).1 hq_mem

/-- C7 (amended, positive half): json_to_inv-pts.py's price-break push keys
the existing rows by quantity, patching changed prices in place and creating
only quantities not yet present, so it preserves the
at-most-one-price-break-per-quantity invariant for the pushed supplier
part. -/
theorem pts_price_break_sync_unique (sp_pk : Nat) (pbs : List PBInput) (st : SyncSt)
    (h : (spQuantities sp_pk st).Nodup) :
    (spQuantities sp_pk (pts_price_break_sync sp_pk pbs st).1).Nodup := by
  rw [pts_price_break_sync]
  refine pts_pb_loop_nodup sp_pk _ (uniquePbs pbs) st h ?_ ?_
  · exact nodup_keys_uniquePbs_aux pbs [] (by simp)
  · intro qp hqp hal
    rw [alookup_none_iff] at hal
    intro hmem
    apply hal
    show qp.1 ∈ (((st.priceBreaks.filter (fun r => r.sp == sp_pk)).foldl
      (fun m pb => insertReplace m pb.quantity pb) []).map Prod.fst)
    rw [mem_keys_byQuantity_aux]
    right
    exact hmem

theorem pts_price_break_sync_unique_witness :
    (spQuantities 7 pbSt0).Nodup ∧
      (spQuantities 7 (pts_price_break_sync 7 [⟨10, 2, "USD"⟩] pbSt0).1).Nodup :=
  ⟨by decide, pts_price_break_sync_unique 7 [⟨10, 2, "USD"⟩] pbSt0 (by decide)⟩

end PartsEpccs
